import Mathlib

/-!
# Verification of the ag-ui Rust client SDK core

Shallow embedding, in Lean 4, of the core of the `ag-ui-client` /
`ag-ui-core` Rust crates:

* the SSE frame decoder (`sse.rs`: `process_raw_sse_events`,
  `parse_sse_event`, and the incremental buffering loop of
  `SseEventProcessor::new`),
* the error taxonomy and its retryability predicate (`error.rs`),
* the protocol event model (`event.rs`) and message model (`message.rs`),
* the run-executor reducer (`event_handler.rs`: `handle_event`,
  `process_mutation`, `update_from_mutation`, `apply_mutation`,
  `on_error`, `on_finalize`) and the run loop (`agent.rs`: `run_agent`).

Rust strings are modelled as `List Char` in the decoder (chunk splits are
at character boundaries) and as `String` elsewhere; `serde_json::Value`
is modelled by the inductive `Json` (numbers as integers); asynchronous
subscriber hooks are modelled as pure functions returning
`Except AgError _`, and `MessageId::random` as an explicitly threaded
supply of fresh identifiers.
-/

namespace AgUi

/-! ## SSE frame decoder (`sse.rs`) -/

/-- The frame separator used by `process_raw_sse_events`: a blank line,
i.e. the two-character string `"\n\n"`. -/
def sep : List Char := ['\n', '\n']

/-- Prepend a character to the first chunk of a chunk list. -/
def consHead (c : Char) : List (List Char) → List (List Char)
  | [] => [[c]]
  | h :: t => (c :: h) :: t

/-- Rust `buffer.split("\n\n")`: leftmost, non-overlapping splitting on the
two-character separator.  Always returns at least one chunk. -/
def splitSep : List Char → List (List Char)
  | [] => [[]]
  | [c] => [[c]]
  | c :: d :: rest =>
    if c = '\n' ∧ d = '\n' then [] :: splitSep rest
    else consHead c (splitSep (d :: rest))

/-- Whether a string contains the separator `"\n\n"` as a substring. -/
def hasSep : List Char → Bool
  | [] => false
  | [_] => false
  | c :: d :: rest => if c = '\n' ∧ d = '\n' then true else hasSep (d :: rest)

/-- Rust `buffer.ends_with("\n\n")`. -/
def endsWithSep (l : List Char) : Bool :=
  decide (['\n', '\n'] <:+ l)

/-- Rust `str::strip_prefix`. -/
def stripPfx : List Char → List Char → Option (List Char)
  | [], l => some l
  | _ :: _, [] => none
  | p :: ps, c :: cs => if p = c then stripPfx ps cs else none

/-- ASCII whitespace, modelling the characters `str::trim` strips in the
strings that occur in SSE fields. -/
def isWs (c : Char) : Bool :=
  c = ' ' ∨ c = '\t' ∨ c = '\n' ∨ c = '\r'

/-- Rust `str::trim`. -/
def trim (l : List Char) : List Char :=
  ((l.dropWhile isWs).reverse.dropWhile isWs).reverse

/-- Splitting on single newlines (helper for `rustLines`). -/
def splitNl : List Char → List (List Char)
  | [] => [[]]
  | c :: rest => if c = '\n' then [] :: splitNl rest else consHead c (splitNl rest)

/-- Strip one trailing carriage return, as Rust `str::lines` does per line. -/
def stripCr (l : List Char) : List Char :=
  if l.getLast? = some '\r' then l.dropLast else l

/-- Rust `str::lines`: split at `'\n'`, the final line ending optional,
each line stripped of one trailing `'\r'`. -/
def rustLines (l : List Char) : List (List Char) :=
  if l = [] then []
  else
    let ls := splitNl l
    let ls := if l.getLast? = some '\n' then ls.dropLast else ls
    ls.map stripCr

/-- A parsed Server-Sent Event (Rust `SseEvent`). -/
structure SseFrame where
  event : Option (List Char)
  id : Option (List Char)
  data : List Char
  deriving DecidableEq, Repr

/-- One step of the line loop of `parse_sse_event`. -/
def parseSseLine (st : Option (List Char) × Option (List Char) × List (List Char))
    (line : List Char) : Option (List Char) × Option (List Char) × List (List Char) :=
  let (ev, i, dls) := st
  if line = [] then (ev, i, dls)
  else
    match stripPfx "event:".toList line with
    | some v => (some (trim v), i, dls)
    | none =>
      match stripPfx "id:".toList line with
      | some v => (ev, some (trim v), dls)
      | none =>
        match stripPfx "data:".toList line with
        | some v =>
          let content := (stripPfx [' '] v).getD v
          (ev, i, dls ++ [content])
        | none => (ev, i, dls)

/-- Rust `parse_sse_event`: scan the segment's lines, `event:`/`id:` with
last write winning, `data:` lines (one leading space stripped) joined with
newlines; unrecognized prefixes ignored.  In the source this returns
`Ok` on every input. -/
def parseSseEvent (segment : List Char) : SseFrame :=
  let (ev, i, dls) := (rustLines segment).foldl parseSseLine (none, none, [])
  ⟨ev, i, List.intercalate ['\n'] dls⟩

/-- Rust `process_raw_sse_events`: split the buffer on blank lines, emit
every complete non-empty segment as a frame, and return the retained
remainder of the buffer. -/
def processRaw (buffer : List Char) : List SseFrame × List Char :=
  let chunks := splitSep buffer
  if chunks.length = 1 ∧ ¬ endsWithSep buffer then
    ([], buffer)
  else
    let complete := if endsWithSep buffer then chunks else chunks.dropLast
    let results := (complete.filter (fun c => ¬ c.isEmpty)).map parseSseEvent
    let newBuffer :=
      if ¬ endsWithSep buffer ∧ ¬ chunks.isEmpty then chunks.getLastD [] else []
    (results, newBuffer)

/-- The incremental loop of `SseEventProcessor::new`: per chunk, append to
the retained buffer, run `process_raw_sse_events`, keep the new remainder. -/
def feedChunks (r : List Char) : List (List Char) → List SseFrame × List Char
  | [] => ([], r)
  | c :: cs =>
    let (fs, r') := processRaw (r ++ c)
    let (fs', r'') := feedChunks r' cs
    (fs ++ fs', r'')

/-- A well-formed SSE frame segment: non-empty, containing no blank-line
separator, and neither starting nor ending with a newline. -/
def WfSeg (s : List Char) : Prop :=
  s ≠ [] ∧ hasSep s = false ∧ s.head? ≠ some '\n' ∧ s.getLast? ≠ some '\n'

/-- A well-formed multi-frame buffer: the segments, each terminated by the
blank-line separator, concatenated in order. -/
def sseBlocks (ss : List (List Char)) : List Char :=
  (ss.map (· ++ sep)).flatten

/-- A possibly-empty partial trailing segment, as retained between calls. -/
def PartialSeg (t : List Char) : Prop :=
  hasSep t = false ∧ t.head? ≠ some '\n'

instance (s : List Char) : Decidable (WfSeg s) := by
  unfold WfSeg
  infer_instance

instance (t : List Char) : Decidable (PartialSeg t) := by
  unfold PartialSeg
  infer_instance

/-! ## Generic JSON values (`serde_json::Value`)

Numbers are modelled as integers; object fields as an association list in
insertion order (as `serde_json` with `preserve_order` keeps them). -/

inductive Json where
  | null : Json
  | bool (b : Bool) : Json
  | num (n : Int) : Json
  | str (s : String) : Json
  | arr (elems : List Json) : Json
  | obj (fields : List (String × Json)) : Json

mutual

/-- Structural equality on JSON values (`serde_json::Value: PartialEq`). -/
def Json.beq : Json → Json → Bool
  | .null, .null => true
  | .bool a, .bool b => a = b
  | .num a, .num b => a = b
  | .str a, .str b => a = b
  | .arr a, .arr b => Json.beqList a b
  | .obj a, .obj b => Json.beqFields a b
  | _, _ => false

/-- Elementwise equality of JSON arrays. -/
def Json.beqList : List Json → List Json → Bool
  | [], [] => true
  | x :: xs, y :: ys => Json.beq x y && Json.beqList xs ys
  | _, _ => false

/-- Elementwise equality of JSON object fields. -/
def Json.beqFields : List (String × Json) → List (String × Json) → Bool
  | [], [] => true
  | (k, x) :: xs, (l, y) :: ys => k = l && Json.beq x y && Json.beqFields xs ys
  | _, _ => false

end

/-! ## JSON Patch (RFC 6902), the external `json_patch` collaborator

The spec treats the JSON-Patch apply primitive as an external capability
(`json_patch::patch`), applied to a scratch serialized value; operations
run in order and the first failure aborts the whole patch (the model is
pure, so the input document is never modified on failure). -/

/-- One RFC 6902 operation with its JSON-Pointer path already tokenized. -/
inductive PatchOp where
  | add (path : List String) (value : Json)
  | remove (path : List String)
  | replace (path : List String) (value : Json)
  | move (from_ : List String) (path : List String)
  | copy (from_ : List String) (path : List String)
  | test (path : List String) (value : Json)

/-- RFC 6901 token unescaping: `~1` is `/`, `~0` is `~`. -/
def unescapeChars : List Char → List Char
  | [] => []
  | '~' :: '1' :: rest => '/' :: unescapeChars rest
  | '~' :: '0' :: rest => '~' :: unescapeChars rest
  | c :: rest => c :: unescapeChars rest

/-- Splitting a pointer body on slashes. -/
def splitOnSlash : List Char → List (List Char)
  | [] => [[]]
  | c :: rest =>
    if c = '/' then [] :: splitOnSlash rest else consHead c (splitOnSlash rest)

/-- RFC 6901 JSON-Pointer parsing: empty means the whole document,
otherwise the pointer must start with `/`. -/
def parsePointer (s : String) : Option (List String) :=
  match s.toList with
  | [] => some []
  | '/' :: rest => some ((splitOnSlash rest).map (fun t => ⟨unescapeChars t⟩))
  | _ => none

/-- Association-list field lookup by key (`serde_json::Map::get`). -/
def lookupField (fields : List (String × Json)) (key : String) : Option Json :=
  match fields with
  | [] => none
  | (k, v) :: rest => if k = key then some v else lookupField rest key

/-- Decimal parsing of an array-index pointer token. -/
def parseIndexChars : List Char → Nat → Option Nat
  | [], acc => some acc
  | c :: rest, acc =>
    if '0' ≤ c ∧ c ≤ '9' then
      parseIndexChars rest (acc * 10 + (c.toNat - '0'.toNat))
    else none

/-- An array-index token: at least one digit. -/
def parseIndex (tok : String) : Option Nat :=
  match tok.toList with
  | [] => none
  | l => parseIndexChars l 0

/-- Fetch the value at a pointer (for `move`/`copy`/`test`). -/
def jsonGet : Json → List String → Option Json
  | doc, [] => some doc
  | .obj fields, tok :: rest =>
    match lookupField fields tok with
    | some v => jsonGet v rest
    | none => none
  | .arr elems, tok :: rest =>
    match parseIndex tok with
    | some i => match elems.get? i with
      | some v => jsonGet v rest
      | none => none
    | none => none
  | _, _ :: _ => none

/-- Replace the value of an existing object key. -/
def setField (fields : List (String × Json)) (key : String) (v : Json) :
    List (String × Json) :=
  fields.map fun kv => if kv.1 = key then (key, v) else kv

/-- RFC 6902 `add` at a pointer: replace the root, insert/overwrite an object key,
or insert into an array at an index or at the end (`-`). -/
def jsonAdd : Json → List String → Json → Option Json
  | _, [], v => some v
  | .obj fields, [tok], v =>
    if (lookupField fields tok).isSome then some (.obj (setField fields tok v))
    else some (.obj (fields ++ [(tok, v)]))
  | .arr elems, [tok], v =>
    if tok = "-" then some (.arr (elems ++ [v]))
    else match parseIndex tok with
      | some i => if i ≤ elems.length
          then some (.arr (elems.take i ++ v :: elems.drop i)) else none
      | none => none
  | .obj fields, tok :: rest, v =>
    match lookupField fields tok with
    | some child =>
      match jsonAdd child rest v with
      | some child' => some (.obj (setField fields tok child'))
      | none => none
    | none => none
  | .arr elems, tok :: rest, v =>
    match parseIndex tok with
    | some i =>
      match elems.get? i with
      | some child =>
        match jsonAdd child rest v with
        | some child' => some (.arr (elems.set i child'))
        | none => none
      | none => none
    | none => none
  | _, _ :: _, _ => none

/-- RFC 6902 `remove` at a pointer: the target location must exist. -/
def jsonRemove : Json → List String → Option Json
  | _, [] => none
  | .obj fields, [tok] =>
    if (lookupField fields tok).isSome
    then some (.obj (fields.filter fun kv => ¬ kv.1 = tok)) else none
  | .arr elems, [tok] =>
    match parseIndex tok with
    | some i => if i < elems.length
        then some (.arr (elems.take i ++ elems.drop (i + 1))) else none
    | none => none
  | .obj fields, tok :: rest =>
    match lookupField fields tok with
    | some child =>
      match jsonRemove child rest with
      | some child' => some (.obj (setField fields tok child'))
      | none => none
    | none => none
  | .arr elems, tok :: rest =>
    match parseIndex tok with
    | some i =>
      match elems.get? i with
      | some child =>
        match jsonRemove child rest with
        | some child' => some (.arr (elems.set i child'))
        | none => none
      | none => none
    | none => none
  | _, _ :: _ => none

/-- RFC 6902 `replace` at a pointer: the target location must exist. -/
def jsonReplace (doc : Json) (path : List String) (v : Json) : Option Json :=
  match path with
  | [] => some v
  | _ =>
    match jsonGet doc path with
    | some _ => jsonAdd doc path v
    | none => none

/-- Apply one RFC 6902 operation; `none` is an operation failure. -/
def applyOp (doc : Json) : PatchOp → Option Json
  | .add path v => jsonAdd doc path v
  | .remove path => jsonRemove doc path
  | .replace path v => jsonReplace doc path v
  | .move from_ path =>
    match jsonGet doc from_ with
    | some v =>
      match jsonRemove doc from_ with
      | some doc' => jsonAdd doc' path v
      | none => none
    | none => none
  | .copy from_ path =>
    match jsonGet doc from_ with
    | some v => jsonAdd doc path v
    | none => none
  | .test path v =>
    match jsonGet doc path with
    | some w => if (Json.beq w v) then some doc else none
    | none => none

/-- Rust `json_patch::patch`: ordered application, first failure aborts the
whole patch.  Pure, so the original document survives any failure. -/
def applyPatch (doc : Json) : List PatchOp → Option Json
  | [] => some doc
  | op :: ops =>
    match applyOp doc op with
    | some doc' => applyPatch doc' ops
    | none => none

/-- serde decoding of one element of a `StateDelta` payload into a
`json_patch::PatchOperation` (tagged by its `op` field, with `path` /
`from` JSON Pointers and an optional `value`). -/
def parsePatchOp (j : Json) : Option PatchOp :=
  match j with
  | .obj fields =>
    match lookupField fields "op" with
    | some (.str op) =>
      match lookupField fields "path" with
      | some (.str pathStr) =>
        match parsePointer pathStr with
        | some path =>
          if op = "add" then
            (lookupField fields "value").map (.add path)
          else if op = "remove" then some (.remove path)
          else if op = "replace" then
            (lookupField fields "value").map (.replace path)
          else if op = "test" then
            (lookupField fields "value").map (.test path)
          else if op = "move" ∨ op = "copy" then
            match lookupField fields "from" with
            | some (.str fromStr) =>
              match parsePointer fromStr with
              | some from_ =>
                some (if op = "move" then .move from_ path else .copy from_ path)
              | none => none
            | _ => none
          else none
        | none => none
      | _ => none
    | _ => none
  | _ => none

/-- serde decoding of a whole `Vec<PatchOperation>` from the event's
`delta` array; any undecodable element fails the whole decode. -/
def parsePatchOps (delta : List Json) : Option (List PatchOp) :=
  delta.mapM parsePatchOp

/-! ## Identifiers and messages (`ids.rs`, `message.rs`)

Message ids are opaque unique tokens (128-bit UUIDs in the source),
modelled as naturals; tool-call ids are short prefixed strings. -/

abbrev MessageId := Nat
abbrev ToolCallId := String

/-- Rust `FunctionCall`: a tool name and the raw accumulated argument
string. -/
structure FunctionCall where
  name : String
  arguments : String
  deriving DecidableEq, Repr

/-- Rust `ToolCall`: id, fixed call kind (always `"function"`), function. -/
structure ToolCall where
  id : ToolCallId
  call_type : String
  function : FunctionCall
  deriving DecidableEq, Repr

/-- Rust `Role`. -/
inductive Role where
  | developer | system | assistant | user | tool
  deriving DecidableEq, Repr

/-- Rust `Message`: polymorphic over roles; the assistant variant holds
optional content and an optional ordered tool-call list. -/
inductive Message where
  | developer (id : MessageId) (content : String) (name : Option String)
  | system (id : MessageId) (content : String) (name : Option String)
  | assistant (id : MessageId) (content : Option String) (name : Option String)
      (tool_calls : Option (List ToolCall))
  | user (id : MessageId) (content : String) (name : Option String)
  | tool (id : MessageId) (content : String) (tool_call_id : ToolCallId)
      (error : Option String)
  deriving DecidableEq, Repr

/-- Rust `Message::id`. -/
def Message.id : Message → MessageId
  | .developer i _ _ => i
  | .system i _ _ => i
  | .assistant i _ _ _ => i
  | .user i _ _ => i
  | .tool i _ _ _ => i

/-- Rust `Message::role`. -/
def Message.role : Message → Role
  | .developer .. => .developer
  | .system .. => .system
  | .assistant .. => .assistant
  | .user .. => .user
  | .tool .. => .tool

/-- Rust `Message::tool_calls` (read-only accessor). -/
def Message.tool_calls : Message → Option (List ToolCall)
  | .assistant _ _ _ tcs => tcs
  | _ => none

/-- The `content_mut` + `push_str` pair used by `TextMessageContent`:
assistant content is materialized as empty first when absent, then the
delta is appended; every other role appends directly. -/
def Message.pushContentDelta (m : Message) (delta : String) : Message :=
  match m with
  | .developer i c n => .developer i (c ++ delta) n
  | .system i c n => .system i (c ++ delta) n
  | .assistant i c n tcs => .assistant i (some (c.getD "" ++ delta)) n tcs
  | .user i c n => .user i (c ++ delta) n
  | .tool i c tid err => .tool i (c ++ delta) tid err

/-- The `tool_calls_mut` + push pair used by the matching branch of
`ToolCallStart`: an assistant's absent tool-call list is materialized as
empty and the call appended; other roles have no tool-call list and are
left unchanged. -/
def Message.pushToolCall (m : Message) (tc : ToolCall) : Message :=
  match m with
  | .assistant i c n tcs => .assistant i c n (some (tcs.getD [] ++ [tc]))
  | other => other

/-- Helper for mutating the last message in place, as the reducer does via `last_mut`/`tool_calls_mut`/`last_mut`: mutate the
last message in place (no-op on an empty list). -/
def modifyLast (f : Message → Message) : List Message → List Message
  | [] => []
  | [m] => [f m]
  | m :: rest => m :: modifyLast f rest

/-! ## Error taxonomy (`error.rs`) -/

/-- The retryability-relevant classification of a `reqwest::Error`
(`is_connect` / `is_timeout` / `is_request`), kept abstract as flags. -/
structure TransportError where
  is_connect : Bool
  is_timeout : Bool
  is_request : Bool
  deriving DecidableEq, Repr

/-- Rust `AgUiClientError` (aliased `AgentError`): the closed error
taxonomy. -/
inductive AgError where
  | config (message : String)
  | httpTransport (e : TransportError)
  | httpStatus (status : Nat) (context : String)
  | sseParse (message : String)
  | json (message : String)
  | subscriber (message : String)
  | execution (message : String)
  deriving DecidableEq, Repr

/-- Rust `reqwest::StatusCode::is_server_error`: 500–599. -/
def isServerError (status : Nat) : Bool :=
  500 ≤ status ∧ status ≤ 599

/-- Rust `AgUiClientError::is_retryable`. -/
def AgError.is_retryable : AgError → Bool
  | .httpTransport e => e.is_connect || e.is_timeout || e.is_request
  | .httpStatus status _ => isServerError status || status = 429
  | _ => false

/-! ## Protocol event model (`event.rs`)

The closed event union, parametric in the typed state `S` (the
`StateSnapshot` payload).  Only the payload fields the reducer reads are
carried; the common envelope (timestamp, raw payload) is not read by the
reducer and is omitted. -/

inductive Event (S : Type) where
  | textMessageStart (messageId : MessageId)
  | textMessageContent (messageId : MessageId) (delta : String)
  | textMessageEnd (messageId : MessageId)
  | textMessageChunk (messageId : Option MessageId) (delta : Option String)
  | thinkingTextMessageStart
  | thinkingTextMessageContent (delta : String)
  | thinkingTextMessageEnd
  | toolCallStart (toolCallId : ToolCallId) (toolCallName : String)
      (parentMessageId : Option MessageId)
  | toolCallArgs (toolCallId : ToolCallId) (delta : String)
  | toolCallEnd (toolCallId : ToolCallId)
  | toolCallChunk (toolCallId : Option ToolCallId) (toolCallName : Option String)
      (parentMessageId : Option MessageId) (delta : Option String)
  | toolCallResult (messageId : MessageId) (toolCallId : ToolCallId) (content : String)
  | thinkingStart (title : Option String)
  | thinkingEnd
  | stateSnapshot (snapshot : S)
  | stateDelta (delta : List Json)
  | messagesSnapshot (messages : List Message)
  | raw (event : Json)
  | custom (name : String) (value : Json)
  | runStarted
  | runFinished (result : Option Json)
  | runError (message : String)
  | stepStarted (stepName : String)
  | stepFinished (stepName : String)

/-! ## Run executor (`event_handler.rs`, `agent.rs`) -/

/-- Rust `AgentStateMutation`: optional replacement message list, optional
replacement state, stop-propagation flag. -/
structure Mutation (S : Type) where
  messages : Option (List Message) := none
  state : Option S := none
  stop_propagation : Bool := false

/-- The serialize/deserialize capability a typed state must provide
(`serde_json::to_value` / `from_value`); deserialization can fail with a
`Json` error on a type mismatch. -/
structure StateModel (S : Type) where
  ser : S → Json
  de : Json → Except AgError S

/-- The identity state model for runs whose typed state is `JsonValue`
itself (the crate's default instantiation). -/
def jsonStateModel : StateModel Json where
  ser := fun s => s
  de := fun j => .ok j

/-- A subscriber, modelled by its hooks as pure functions of the event and
the read-only run view (messages, state) it is passed.  The per-variant
hooks of the Rust trait are collapsed into `onSpecific`, dispatched on the
event; lifecycle hooks return `Except AgError Unit` since `handle_event`
ignores their mutations and only propagates their errors. -/
structure Subscriber (S : Type) where
  onEvent : Event S → List Message → S → Except AgError (Mutation S) :=
    fun _ _ _ => .ok {}
  onSpecific : Event S → List Message → S → Except AgError (Mutation S) :=
    fun _ _ _ => .ok {}
  onNewMessage : Message → List Message → S → Except AgError Unit :=
    fun _ _ _ => .ok ()
  onNewToolCall : ToolCall → List Message → S → Except AgError Unit :=
    fun _ _ _ => .ok ()
  onMessagesChanged : List Message → S → Except AgError Unit :=
    fun _ _ => .ok ()
  onStateChanged : List Message → S → Except AgError Unit :=
    fun _ _ => .ok ()
  onRunFailed : AgError → List Message → S → Except AgError Unit :=
    fun _ _ _ => .ok ()
  onRunFinalized : List Message → S → Except AgError Unit :=
    fun _ _ => .ok ()

/-- The state owned by `EventHandler`: canonical message list, typed
state, and the captured final result. -/
structure HState (S : Type) where
  messages : List Message
  state : S
  result : Json

/-- Rust `EventHandler::update_from_mutation`: apply set fields directly. -/
def updateFromMutation (hs : HState S) (m : Mutation S) : HState S :=
  { hs with
    messages := m.messages.getD hs.messages
    state := m.state.getD hs.state }

/-- Rust `EventHandler::process_mutation`: apply a set field immediately
and record it into the running merged mutation. -/
def processMutation (hs : HState S) (cur : Mutation S) (m : Mutation S) :
    HState S × Mutation S :=
  if m.messages.isSome ∨ m.state.isSome then
    (updateFromMutation hs m,
     { cur with
       messages := if m.messages.isSome then m.messages else cur.messages
       state := if m.state.isSome then m.state else cur.state })
  else (hs, cur)

/-- The merge fold at the end of `handle_event` (lines 435–444): in
collection order, a stop-flagged mutation is applied and returned as the
result itself; any other mutation is processed via `process_mutation`. -/
def mergeLoop (hs : HState S) (cur : Mutation S) :
    List (Mutation S) → Mutation S × HState S
  | [] => (cur, hs)
  | m :: rest =>
    if m.stop_propagation then (m, updateFromMutation hs m)
    else
      let (hs', cur') := processMutation hs cur m
      mergeLoop hs' cur' rest

/-- Appending an argument delta to the last tool call of a list
(`tool_calls.last_mut()` + `push_str`). -/
def modifyLastTc (tcs : List ToolCall) (delta : String) : List ToolCall :=
  match tcs with
  | [] => []
  | [tc] => [{ tc with function := { tc.function with
      arguments := tc.function.arguments ++ delta } }]
  | tc :: rest => tc :: modifyLastTc rest delta

/-- The default reconstruction step of `handle_event`: the per-variant
mutation of the handler's own state and of `current_mutation`, performed
between the generic collection loop and the event-specific hook loop.
`freshId` stands for the `MessageId::random()` drawn in the empty-list
branch of `ToolCallStart`.  Only `StateDelta` can fail. -/
def defaultStep (sm : StateModel S) (freshId : MessageId) (ev : Event S)
    (hs : HState S) : Except AgError (HState S × Mutation S) :=
  match ev with
  | .textMessageStart mid =>
    let msgs := hs.messages ++ [Message.assistant mid (some "") none none]
    .ok ({ hs with messages := msgs }, { messages := some msgs })
  | .textMessageContent _ delta =>
    match hs.messages with
    | [] => .ok (hs, {})
    | _ =>
      let msgs := modifyLast (Message.pushContentDelta · delta) hs.messages
      .ok ({ hs with messages := msgs }, { messages := some msgs })
  | .toolCallStart tcId tcName parent =>
    let tc : ToolCall := ⟨tcId, "function", ⟨tcName, ""⟩⟩
    let msgs :=
      match hs.messages.getLast? with
      | some lastMsg =>
        if some lastMsg.id = parent then
          modifyLast (Message.pushToolCall · tc) hs.messages
        else hs.messages
      | none =>
        [Message.assistant (parent.getD freshId) none none none]
    .ok ({ hs with messages := msgs }, { messages := some msgs })
  | .toolCallArgs _ delta =>
    match hs.messages.getLast? with
    | none => .ok (hs, {})
    | some lastMsg =>
      match lastMsg with
      | .assistant i c n tcs =>
        match tcs.getD [] with
        | [] =>
          let msgs := modifyLast (fun _ => Message.assistant i c n (some [])) hs.messages
          .ok ({ hs with messages := msgs }, {})
        | _ =>
          let pushArgs := fun (m : Message) =>
            match m with
            | .assistant i' c' n' tcs' =>
              Message.assistant i' c' n'
                (some (modifyLastTc (tcs'.getD []) delta))
            | other => other
          let msgs := modifyLast pushArgs hs.messages
          .ok ({ hs with messages := msgs }, { messages := some msgs })
      | _ => .ok (hs, {})
  | .stateSnapshot snapshot =>
    .ok ({ hs with state := snapshot }, { state := some snapshot })
  | .stateDelta delta =>
    let stateVal := sm.ser hs.state
    match parsePatchOps delta with
    | none => .error (.json "invalid patch operations")
    | some patches =>
      match applyPatch stateVal patches with
      | none => .error (.execution "Failed to apply state patch")
      | some newVal =>
        match sm.de newVal with
        | .error e => .error e
        | .ok newState =>
          .ok ({ hs with state := newState }, { state := some newState })
  | .runFinished result =>
    .ok ({ hs with result := result.getD Json.null }, {})
  | _ => .ok (hs, {})

/-- Rust `EventHandler::handle_event`.  First the generic `on_event` hook
is collected from every subscriber, then the default reconstruction rule
runs, then the event-specific hook is collected from every subscriber
(observing post-default state), and finally the merge fold runs over all
collected mutations.  The handler state is returned alongside the result
even on error, mirroring that `&mut self` keeps its partial mutations when
`?` propagates an error. -/
def handleEvent (sm : StateModel S) (subs : List (Subscriber S))
    (freshId : MessageId) (ev : Event S) (hs : HState S) :
    Except AgError (Mutation S) × HState S :=
  match subs.mapM (fun sub => sub.onEvent ev hs.messages hs.state) with
  | .error e => (.error e, hs)
  | .ok muts1 =>
    match defaultStep sm freshId ev hs with
    | .error e => (.error e, hs)
    | .ok (hs1, cur) =>
      match subs.mapM (fun sub => sub.onSpecific ev hs1.messages hs1.state) with
      | .error e => (.error e, hs1)
      | .ok muts2 =>
        let (merged, hs2) := mergeLoop hs1 cur (muts1 ++ muts2)
        (.ok merged, hs2)

/-- A lifecycle notification delivered to one subscriber. -/
inductive Notif where
  | newMessage (id : MessageId)
  | newToolCall (id : ToolCallId)
  | messagesChanged
  | stateChanged
  | runFailed
  | runFinalized
  deriving DecidableEq, Repr

/-- Invoke one lifecycle hook on every subscriber in registration order,
recording one trace entry per delivery; a hook failure stops the loop and
propagates (later subscribers are not invoked). -/
def runNotify (inv : Subscriber S → Except AgError Unit)
    (tag : Notif) : List (Subscriber S) → Except AgError Unit × List Notif
  | [] => (.ok (), [])
  | sub :: rest =>
    match inv sub with
    | .error e => (.error e, [tag])
    | .ok _ =>
      let (r, tr) := runNotify inv tag rest
      (r, tag :: tr)

/-- Sequencing of traced notification steps. -/
def bindN (a : Except AgError Unit × List Notif)
    (k : Unit → Except AgError Unit × List Notif) :
    Except AgError Unit × List Notif :=
  match a with
  | (.error e, tr) => (.error e, tr)
  | (.ok _, tr) =>
    let (r, tr') := k ()
    (r, tr ++ tr')

/-- The tool-call notification loop inside `apply_mutation`. -/
def notifyToolCalls (subs : List (Subscriber S)) (hs : HState S) :
    List ToolCall → Except AgError Unit × List Notif
  | [] => (.ok (), [])
  | tc :: rest =>
    bindN (runNotify (fun sub => sub.onNewToolCall tc hs.messages hs.state)
        (.newToolCall tc.id) subs) fun _ =>
      notifyToolCalls subs hs rest

/-- The per-new-message notification loop of `apply_mutation`: notify the
new message, and for a new assistant message with a present tool-call
list, notify each of its tool calls. -/
def notifyNewMessages (subs : List (Subscriber S)) (hs : HState S) :
    List Message → Except AgError Unit × List Notif
  | [] => (.ok (), [])
  | m :: rest =>
    bindN (runNotify (fun sub => sub.onNewMessage m hs.messages hs.state)
        (.newMessage m.id) subs) fun _ =>
      bindN
        (if m.role = .assistant ∧ (Message.tool_calls m).isSome then
          notifyToolCalls subs hs ((Message.tool_calls m).getD [])
        else (.ok (), [])) fun _ =>
        notifyNewMessages subs hs rest

/-- The messages phase of Rust `EventHandler::apply_mutation`: diff
message-id sets against the handler's current list, set the new list,
fire new-message (and, for new assistant messages, new-tool-call)
notifications, then a single messages-changed notification. -/
def applyMessagesPart (subs : List (Subscriber S)) (hs : HState S)
    (mu : Mutation S) : HState S × (Except AgError Unit × List Notif) :=
  match mu.messages with
  | none => (hs, ((.ok () : Except AgError Unit), ([] : List Notif)))
  | some msgs =>
    let oldIds := hs.messages.map Message.id
    let newMsgs := msgs.filter (fun m => ¬ oldIds.contains (Message.id m))
    let hs1 : HState S := { hs with messages := msgs }
    (hs1,
      bindN (notifyNewMessages subs hs1 newMsgs) fun _ =>
        runNotify (fun sub => sub.onMessagesChanged hs1.messages hs1.state)
          .messagesChanged subs)

/-- The state phase of `apply_mutation` and the assembly of both phases. -/
def applyMutation (subs : List (Subscriber S)) (hs : HState S)
    (mu : Mutation S) : Except AgError (HState S) × List Notif :=
  match applyMessagesPart subs hs mu with
  | (_, (.error e, tr)) => (.error e, tr)
  | (hs1, (.ok _, tr)) =>
    match mu.state with
    | none => (.ok hs1, tr)
    | some st =>
      let hs2 : HState S := { hs1 with state := st }
      match runNotify (fun sub => sub.onStateChanged hs2.messages hs2.state)
          .stateChanged subs with
      | (.error e, tr2) => (.error e, tr ++ tr2)
      | (.ok _, tr2) => (.ok hs2, tr ++ tr2)

/-- Rust `RunAgentResult`: final output value, messages newly introduced
during the run, final typed state. -/
structure RunAgentResult (S : Type) where
  result : Json
  new_messages : List Message
  new_state : S

/-- One stream item, as yielded by the transport: a decoded event or a
transport/frame/decode error. -/
abbrev StreamItem (S : Type) := Except AgError (Event S)

/-- The event loop of `Agent::run_agent` (lines 215–226): per `Ok` item,
`handle_event` then `apply_mutation`, a failure of either propagating
immediately; per `Err` item, `on_error` (the run-failed notification to
every subscriber, whose own failure propagates instead) and then the
stream error is returned.  `fresh` supplies the random message id that
step may draw. -/
def runLoop (sm : StateModel S) (subs : List (Subscriber S))
    (fresh : Nat → MessageId) (n : Nat) (hs : HState S) :
    List (StreamItem S) → Except AgError (HState S) × List Notif
  | [] => (.ok hs, [])
  | .error e :: _ =>
    let (r, tr) :=
      runNotify (fun sub => sub.onRunFailed e hs.messages hs.state) .runFailed subs
    (match r with
     | .ok _ => .error e
     | .error e2 => .error e2, tr)
  | .ok ev :: rest =>
    match handleEvent sm subs (fresh n) ev hs with
    | (.error e, _) => (.error e, [])
    | (.ok merged, hs1) =>
      match applyMutation subs hs1 merged with
      | (.error e, tr) => (.error e, tr)
      | (.ok hs2, tr) =>
        let (r, tr') := runLoop sm subs fresh (n + 1) hs2 rest
        (r, tr ++ tr')

/-- Rust `Agent::run_agent`: run the event loop from the run input's
message list and state, then fire `on_run_finalized` for every subscriber
(only reached on the success path), and assemble the result, collecting as
new the final messages whose id is not among the initial ones. -/
def runAgent (sm : StateModel S) (subs : List (Subscriber S))
    (fresh : Nat → MessageId) (initMsgs : List Message) (initState : S)
    (items : List (StreamItem S)) :
    Except AgError (RunAgentResult S) × List Notif :=
  let currentIds := initMsgs.map Message.id
  match runLoop sm subs fresh 0 ⟨initMsgs, initState, Json.null⟩ items with
  | (.error e, tr) => (.error e, tr)
  | (.ok hs, tr) =>
    let (r, tr2) :=
      runNotify (fun sub => sub.onRunFinalized hs.messages hs.state)
        .runFinalized subs
    match r with
    | .error e => (.error e, tr ++ tr2)
    | .ok _ =>
      (.ok ⟨hs.result,
        hs.messages.filter (fun m => ¬ currentIds.contains (Message.id m)),
        hs.state⟩, tr ++ tr2)

/-! ## Theorems -/

/-! ### Error retryability (C9) -/

/-- The retryability predicate exactly as the spec words it: transport
connect/timeout/request-level failures, and statuses that are 5xx server
errors or 429; every other taxon is not retryable. -/
def retryableSpec : AgError → Prop
  | .httpTransport e => e.is_connect = true ∨ e.is_timeout = true ∨ e.is_request = true
  | .httpStatus status _ => (500 ≤ status ∧ status ≤ 599) ∨ status = 429
  | _ => False

/-- C9: `is_retryable` holds exactly for connect, timeout or request level
transport errors and for 5xx or 429 statuses; Config, SseParse, Json,
Subscriber and Execution errors are never retryable; in particular 500 and
429 are retryable while 404 and 400 are not. -/
theorem is_retryable_iff_retryableSpec :
    (∀ e : AgError, e.is_retryable = true ↔ retryableSpec e) ∧
    (AgError.httpStatus 500 "").is_retryable = true ∧
    (AgError.httpStatus 429 "").is_retryable = true ∧
    (AgError.httpStatus 404 "").is_retryable = false ∧
    (AgError.httpStatus 400 "").is_retryable = false := by
  refine ⟨fun e => ?_, by decide, by decide, by decide, by decide⟩
  cases e <;>
    simp [AgError.is_retryable, retryableSpec, isServerError,
      Bool.or_eq_true, decide_eq_true_eq, or_assoc]

/-! ### Frame decoder, single call (C7) -/

theorem consHead_ne_nil (c : Char) (l : List (List Char)) : consHead c l ≠ [] := by
  cases l <;> simp [consHead]

theorem splitSep_ne_nil (b : List Char) : splitSep b ≠ [] := by
  induction b using splitSep.induct with
  | case1 => simp [splitSep]
  | case2 c => simp [splitSep]
  | case3 c d rest h ih => simp [splitSep, h]
  | case4 c d rest h ih => simp [splitSep, h, consHead_ne_nil]

theorem splitSep_noSep (b : List Char) (h : hasSep b = false) :
    splitSep b = [b] := by
  induction b using splitSep.induct with
  | case1 => simp [splitSep]
  | case2 c => simp [splitSep]
  | case3 c d rest hcd ih => simp [hasSep, hcd] at h
  | case4 c d rest hcd ih =>
    rw [hasSep.eq_def] at h
    simp only [hcd, if_false] at h
    simp [splitSep, hcd, ih h, consHead]

theorem hasSep_append_left (x t : List Char) (h : hasSep t = true) :
    hasSep (x ++ t) = true := by
  induction x with
  | nil => simpa
  | cons c x' ih =>
    have hne : x' ++ t ≠ [] := by
      intro he
      rcases List.append_eq_nil.mp he with ⟨-, ht⟩
      subst ht
      simp [hasSep] at h
    rcases hz : x' ++ t with - | ⟨d, z⟩
    · exact absurd hz hne
    · show hasSep (c :: (x' ++ t)) = true
      rw [hz]
      by_cases hcd : c = '\n' ∧ d = '\n'
      · simp [hasSep, hcd]
      · simp only [hasSep, hcd, if_false]
        rw [← hz]
        exact ih

theorem endsWithSep_iff (l : List Char) :
    endsWithSep l = true ↔ ∃ x, l = x ++ sep := by
  constructor
  · intro h
    rcases of_decide_eq_true h with ⟨x, hx⟩
    exact ⟨x, hx.symm⟩
  · rintro ⟨x, rfl⟩
    exact decide_eq_true ⟨x, rfl⟩

theorem hasSep_of_endsWithSep (l : List Char) (h : endsWithSep l = true) :
    hasSep l = true := by
  rcases (endsWithSep_iff l).mp h with ⟨x, rfl⟩
  exact hasSep_append_left x sep (by simp [hasSep, sep])

theorem hasSep_of_splitSep_length (b : List Char)
    (h : (splitSep b).length = 1) : hasSep b = false := by
  induction b using splitSep.induct with
  | case1 => simp [hasSep]
  | case2 c => simp [hasSep]
  | case3 c d rest hcd ih =>
    exfalso
    rw [splitSep.eq_def] at h
    simp only [hcd, if_true] at h
    simp at h
    exact splitSep_ne_nil rest h
  | case4 c d rest hcd ih =>
    rw [splitSep.eq_def] at h
    simp only [hcd, if_false] at h
    rcases hz : splitSep (d :: rest) with - | ⟨u, us⟩
    · exact absurd hz (splitSep_ne_nil _)
    · rw [hz, consHead] at h
      simp at h
      rw [hasSep.eq_def]
      simp only [hcd, if_false]
      exact ih (by rw [hz]; simpa using h)

/-- C7: in one decoder call, if the buffer does not end with the blank-line
separator then all prior non-empty segments are emitted in order and the
final segment is retained; if it does end with the separator, every
non-empty segment is emitted and the retained buffer resets to empty; and
a buffer containing no separator at all (a buffer missing its trailing
blank line) yields zero frames and is retained whole. -/
theorem processRaw_frames_and_retention (b : List Char) :
    (endsWithSep b = false →
      processRaw b =
        (((splitSep b).dropLast.filter (fun c => ¬ c.isEmpty)).map parseSseEvent,
          (splitSep b).getLastD [])) ∧
    (endsWithSep b = true →
      processRaw b =
        (((splitSep b).filter (fun c => ¬ c.isEmpty)).map parseSseEvent, [])) ∧
    (hasSep b = false → processRaw b = ([], b)) := by
  refine ⟨fun h => ?_, fun h => ?_, fun h => ?_⟩
  · by_cases hlen : (splitSep b).length = 1
    · have hns := hasSep_of_splitSep_length b hlen
      have hb := splitSep_noSep b hns
      rw [processRaw, hb]
      simp [h]
    · rw [processRaw]
      simp only [h, hlen]
      simp [List.getLastD_eq_getLast?, splitSep_ne_nil]
  · have hne : ¬ ((splitSep b).length = 1 ∧ ¬ endsWithSep b) := by simp [h]
    rw [processRaw]
    simp [h]
  · have hb := splitSep_noSep b h
    have hends : endsWithSep b = false := by
      rcases he : endsWithSep b
      · rfl
      · exact absurd (hasSep_of_endsWithSep b he) (by simp [h])
    rw [processRaw, hb]
    simp [hends]

/-- Closed instance of `processRaw_frames_and_retention`: the no-separator
clause on a buffer missing the trailing blank line retains it whole. -/
theorem processRaw_frames_and_retention_witness :
    processRaw "data: hello".toList = ([], "data: hello".toList) :=
  (processRaw_frames_and_retention "data: hello".toList).2.2 (by decide)

/-! ### Frame decoder, chunk-boundary invariance (C6) -/

theorem hasSep_append_right (p r : List Char) (h : hasSep p = true) :
    hasSep (p ++ r) = true := by
  induction p using hasSep.induct with
  | case1 => simp [hasSep] at h
  | case2 c => simp [hasSep] at h
  | case3 c d rest hcd =>
    show hasSep (c :: d :: (rest ++ r)) = true
    rw [hasSep.eq_def]
    simp [hcd]
  | case4 c d rest hcd ih =>
    rw [hasSep.eq_def] at h
    simp only [hcd, if_false] at h
    show hasSep (c :: d :: (rest ++ r)) = true
    rw [hasSep.eq_def]
    simp only [hcd, if_false]
    exact ih h

theorem hasSep_mono_pref (p L : List Char) (h : hasSep L = false)
    (hp : p <+: L) : hasSep p = false := by
  rcases hp with ⟨r, rfl⟩
  rcases hs : hasSep p
  · rfl
  · rw [hasSep_append_right p r hs] at h
    exact absurd h (by simp)

theorem hasSep_append_nl (s : List Char) (h1 : hasSep s = false)
    (h2 : s.getLast? ≠ some '\n') : hasSep (s ++ ['\n']) = false := by
  induction s using hasSep.induct with
  | case1 => simp [hasSep]
  | case2 c =>
    have : ¬ c = '\n' := by simpa using h2
    simp [hasSep, this]
  | case3 c d rest hcd => simp [hasSep, hcd] at h1
  | case4 c d rest hcd ih =>
    rw [hasSep.eq_def] at h1
    simp only [hcd, if_false] at h1
    show hasSep (c :: d :: (rest ++ ['\n'])) = false
    rw [hasSep.eq_def]
    simp only [hcd, if_false]
    exact ih h1 (by simpa using h2)

theorem splitSep_block (s z : List Char) (hns : hasSep s = false)
    (hlast : s.getLast? ≠ some '\n') :
    splitSep (s ++ '\n' :: '\n' :: z) = s :: splitSep z := by
  induction s with
  | nil => simp [splitSep]
  | cons c s' ih =>
    cases s' with
    | nil =>
      have hc : ¬ c = '\n' := by simpa using hlast
      show splitSep (c :: '\n' :: ('\n' :: z)) = [c] :: splitSep z
      rw [splitSep.eq_def]
      simp only [hc, false_and, if_false]
      rw [splitSep.eq_def]
      simp [consHead]
    | cons d s'' =>
      rw [hasSep.eq_def] at hns
      rcases hcd : decide (c = '\n' ∧ d = '\n') with - | -
      · have hcd' : ¬ (c = '\n' ∧ d = '\n') := of_decide_eq_false hcd
        simp only [hcd', if_false] at hns
        show splitSep (c :: d :: (s'' ++ '\n' :: '\n' :: z)) = _
        rw [splitSep.eq_def]
        simp only [hcd', if_false]
        rw [show d :: (s'' ++ '\n' :: '\n' :: z) = (d :: s'') ++ '\n' :: '\n' :: z from rfl,
          ih hns (by simpa using hlast), consHead]
      · have := of_decide_eq_true hcd
        simp [this] at hns

theorem splitSep_blocks (ss : List (List Char)) (t : List Char)
    (h : ∀ s ∈ ss, WfSeg s) (ht : hasSep t = false) :
    splitSep (sseBlocks ss ++ t) = ss ++ [t] := by
  induction ss with
  | nil => simpa [sseBlocks] using splitSep_noSep t ht
  | cons s ss' ih =>
    obtain ⟨-, hs2, -, hs4⟩ := h s (by simp)
    have : sseBlocks (s :: ss') ++ t = s ++ '\n' :: '\n' :: (sseBlocks ss' ++ t) := by
      simp [sseBlocks, sep]
    rw [this, splitSep_block s _ hs2 hs4, ih (fun u hu => h u (by simp [hu]))]
    rfl

theorem sseBlocks_ends_with_sep (s : List Char) (ss : List (List Char)) :
    ∃ x, sseBlocks (s :: ss) = x ++ sep := by
  induction ss generalizing s with
  | nil => exact ⟨s, by simp [sseBlocks]⟩
  | cons u us ih =>
    obtain ⟨x, hx⟩ := ih u
    exact ⟨s ++ sep ++ x, by simp [sseBlocks, sep] at hx ⊢; simp [hx]⟩

theorem endsWithSep_partial (x t : List Char) (ht : PartialSeg t)
    (tne : t ≠ []) : endsWithSep (x ++ t) = false := by
  rcases he : endsWithSep (x ++ t)
  · rfl
  · exfalso
    rcases (endsWithSep_iff _).mp he with ⟨y, hy⟩
    rcases t with - | ⟨c, t'⟩
    · exact tne rfl
    rcases t' with - | ⟨d, t''⟩
    · -- a single retained character cannot be the end of a separator
      have hc : ¬ c = '\n' := by simpa using ht.2
      have h1 : (x ++ [c]).getLast? = some c := by simp
      have h2 : (y ++ sep).getLast? = some '\n' := by
        rw [show y ++ sep = (y ++ ['\n']) ++ ['\n'] by simp [sep]]
        simp
      rw [hy, h2] at h1
      exact hc (by simpa using h1.symm)
    · -- with at least two retained characters the separator lies inside t
      have hlen : x.length ≤ y.length := by
        have := congrArg List.length hy
        simp [sep] at this
        omega
      have hdrop : c :: d :: t'' = (y.drop x.length) ++ sep := by
        have h1 : List.drop x.length (x ++ c :: d :: t'') = c :: d :: t'' :=
          List.drop_left x _
        rw [hy] at h1
        rw [← h1, List.drop_append_eq_append_drop,
          Nat.sub_eq_zero_of_le hlen, List.drop_zero]
      have : hasSep (c :: d :: t'') = true := by
        rw [hdrop]
        exact hasSep_append_left _ sep (by simp [hasSep, sep])
      rw [ht.1] at this
      exact absurd this (by simp)

theorem processRaw_normal (ss : List (List Char)) (t : List Char)
    (h : ∀ s ∈ ss, WfSeg s) (ht : PartialSeg t) :
    processRaw (sseBlocks ss ++ t) = (ss.map parseSseEvent, t) := by
  have hchunks := splitSep_blocks ss t h ht.1
  have hfilter : ss.filter (fun c => ¬ c.isEmpty) = ss := by
    rw [List.filter_eq_self]
    intro s hs
    obtain ⟨hs1, -, -, -⟩ := h s hs
    simpa using hs1
  cases ss with
  | nil =>
    simp only [sseBlocks, List.map_nil, List.flatten_nil, List.nil_append]
    exact (processRaw_frames_and_retention t).2.2 ht.1
  | cons s ss' =>
    cases t with
    | nil =>
      have hends : endsWithSep (sseBlocks (s :: ss') ++ []) = true := by
        rw [List.append_nil]
        obtain ⟨x, hx⟩ := sseBlocks_ends_with_sep s ss'
        rw [hx]
        exact (endsWithSep_iff _).mpr ⟨x, rfl⟩
      have hpr := (processRaw_frames_and_retention (sseBlocks (s :: ss') ++ [])).2.1 hends
      rw [hpr, hchunks, List.filter_append, hfilter]
      simp
    | cons c t' =>
      have hends : endsWithSep (sseBlocks (s :: ss') ++ (c :: t')) = false :=
        endsWithSep_partial _ (c :: t') ht (by simp)
      have hpr := (processRaw_frames_and_retention (sseBlocks (s :: ss') ++ (c :: t'))).1 hends
      rw [hpr, hchunks]
      rw [show ((s :: ss') ++ [c :: t']).dropLast = s :: ss' from
        List.dropLast_concat ..]
      rw [hfilter, List.getLastD_concat]

theorem prefix_append_cases (p a b : List Char) (h : p <+: a ++ b) :
    p <+: a ∨ ∃ q, p = a ++ q ∧ q <+: b := by
  by_cases hl : p.length ≤ a.length
  · exact Or.inl (List.prefix_of_prefix_length_le h (List.prefix_append a b) hl)
  · right
    have ha : a <+: p :=
      List.prefix_of_prefix_length_le (List.prefix_append a b) h
        (le_of_lt (lt_of_not_le hl))
    obtain ⟨q, rfl⟩ := ha
    obtain ⟨r, hr⟩ := h
    rw [List.append_assoc] at hr
    exact ⟨q, rfl, r, List.append_cancel_left hr⟩

theorem prefix_dropLast_of_proper (p l : List Char) (hp : p <+: l)
    (hne : p ≠ l) : p <+: l.dropLast := by
  obtain ⟨r, rfl⟩ := hp
  cases r with
  | nil => exact absurd (by simp) hne
  | cons x xs =>
    rw [List.dropLast_append_of_ne_nil p (by simp)]
    exact List.prefix_append p _

theorem partialSeg_of_proper_pref (s p : List Char) (hwf : WfSeg s)
    (hp : p <+: s ++ sep) (hne : p ≠ s ++ sep) : PartialSeg p := by
  obtain ⟨hs1, hs2, hs3, hs4⟩ := hwf
  have hdl : (s ++ sep).dropLast = s ++ ['\n'] := by
    rw [show s ++ sep = (s ++ ['\n']) ++ ['\n'] by simp [sep], List.dropLast_concat]
  have hp' : p <+: s ++ ['\n'] := by
    rw [← hdl]
    exact prefix_dropLast_of_proper p _ hp hne
  refine ⟨hasSep_mono_pref p _ (hasSep_append_nl s hs2 hs4) hp', ?_⟩
  cases p with
  | nil => simp
  | cons c p' =>
    cases s with
    | nil => exact absurd rfl hs1
    | cons e s' =>
      obtain ⟨r, hr⟩ := hp'
      have h2 : c :: (p' ++ r) = e :: (s' ++ ['\n']) := by simpa using hr
      have hce : c = e := (List.cons_eq_cons.mp h2).1
      subst hce
      simpa using hs3

theorem prefix_decomp (ss : List (List Char)) (p : List Char)
    (h : ∀ s ∈ ss, WfSeg s) (hp : p <+: sseBlocks ss) :
    ∃ done rest t, ss = done ++ rest ∧ p = sseBlocks done ++ t ∧
      PartialSeg t ∧ t <+: sseBlocks rest := by
  induction ss generalizing p with
  | nil =>
    have : p = [] := List.prefix_nil.mp (by simpa [sseBlocks] using hp)
    exact ⟨[], [], [], rfl, by simp [sseBlocks, this], ⟨rfl, by simp⟩, by simp⟩
  | cons s ss' ih =>
    have hsplit : sseBlocks (s :: ss') = (s ++ sep) ++ sseBlocks ss' := by
      simp [sseBlocks]
    rw [hsplit] at hp
    rcases prefix_append_cases p _ _ hp with hcase | ⟨q, rfl, hq⟩
    · by_cases heq : p = s ++ sep
      · exact ⟨[s], ss', [], rfl, by simp [sseBlocks, heq], ⟨rfl, by simp⟩, by simp⟩
      · refine ⟨[], s :: ss', p, rfl, by simp [sseBlocks], ?_, ?_⟩
        · exact partialSeg_of_proper_pref s p (h s (by simp)) hcase heq
        · rw [hsplit]
          exact hcase.trans (List.prefix_append _ _)
    · obtain ⟨done', rest', t, hss, hqeq, hpt, hpre⟩ :=
        ih q (fun u hu => h u (by simp [hu])) hq
      exact ⟨s :: done', rest', t, by simp [hss],
        by simp [sseBlocks, hqeq, List.append_assoc], hpt, hpre⟩

theorem sseBlocks_append (a b : List (List Char)) :
    sseBlocks (a ++ b) = sseBlocks a ++ sseBlocks b := by
  simp [sseBlocks]

theorem hasSep_sseBlocks_cons (s : List Char) (ss : List (List Char)) :
    hasSep (sseBlocks (s :: ss)) = true := by
  have : sseBlocks (s :: ss) = s ++ ('\n' :: '\n' :: sseBlocks ss) := by
    simp [sseBlocks, sep]
  rw [this]
  exact hasSep_append_left s _ (by rw [hasSep.eq_def]; simp)

theorem feedChunks_cons (r c : List Char) (cs : List (List Char)) :
    feedChunks r (c :: cs) =
      ((processRaw (r ++ c)).1 ++ (feedChunks (processRaw (r ++ c)).2 cs).1,
        (feedChunks (processRaw (r ++ c)).2 cs).2) := rfl

theorem feedChunks_invariant (cs : List (List Char)) :
    ∀ (ss : List (List Char)) (t : List Char), (∀ s ∈ ss, WfSeg s) →
      PartialSeg t → t ++ cs.flatten = sseBlocks ss →
      feedChunks t cs = (ss.map parseSseEvent, []) := by
  induction cs with
  | nil =>
    intro ss t h ht hcat
    simp only [List.flatten_nil, List.append_nil] at hcat
    cases ss with
    | nil =>
      have : t = [] := by simpa [sseBlocks] using hcat
      simp [feedChunks, this]
    | cons s ss' =>
      exfalso
      have := hasSep_sseBlocks_cons s ss'
      rw [← hcat, ht.1] at this
      exact absurd this (by simp)
  | cons c cs' ih =>
    intro ss t h ht hcat
    have hpre : t ++ c <+: sseBlocks ss :=
      ⟨cs'.flatten, by simpa [List.append_assoc] using hcat⟩
    obtain ⟨done, rest, t', hss, hdec, hpt', hpre'⟩ :=
      prefix_decomp ss (t ++ c) h hpre
    have hdone : ∀ s ∈ done, WfSeg s := fun u hu => h u (by simp [hss, hu])
    have hrest : ∀ s ∈ rest, WfSeg s := fun u hu => h u (by simp [hss, hu])
    have hproc : processRaw (t ++ c) = (done.map parseSseEvent, t') := by
      rw [hdec]
      exact processRaw_normal done t' hdone hpt'
    have hcat' : t' ++ cs'.flatten = sseBlocks rest := by
      have h1 : (t ++ c) ++ cs'.flatten = sseBlocks ss := by
        simpa [List.append_assoc] using hcat
      rw [hdec, hss, sseBlocks_append, List.append_assoc] at h1
      exact List.append_cancel_left h1
    have hrec := ih rest t' hrest hpt' hcat'
    show feedChunks t (c :: cs') = _
    rw [feedChunks_cons, hproc]
    simp only []
    rw [hrec, hss]
    simp

/-- C6: chunk-boundary invariance.  For every well-formed multi-frame
buffer (a concatenation of well-formed segments each terminated by the
blank-line separator) and every way of splitting it into successive
chunks, feeding the chunks one at a time through the incremental decoder
(append to the retained buffer, then extract complete frames) yields
exactly the frames — and final retained buffer — of decoding the whole
buffer in a single call. -/
theorem chunk_boundary_invariance (ss cs : List (List Char))
    (hwf : ∀ s ∈ ss, WfSeg s) (hjoin : cs.flatten = sseBlocks ss) :
    feedChunks [] cs = processRaw cs.flatten := by
  have h1 := processRaw_normal ss [] hwf ⟨rfl, by simp⟩
  rw [List.append_nil] at h1
  rw [hjoin, h1]
  exact feedChunks_invariant cs ss [] hwf ⟨rfl, by simp⟩ (by simpa using hjoin)

/-- Closed instance of `chunk_boundary_invariance`: a two-frame buffer cut
in the middle of a frame and in the middle of the separator decodes to the
same frames as the whole buffer. -/
theorem chunk_boundary_invariance_witness :
    feedChunks [] ["data: a\n".toList, "\ndata".toList, ": b\n\n".toList] =
      processRaw (["data: a\n".toList, "\ndata".toList, ": b\n\n".toList]).flatten :=
  chunk_boundary_invariance ["data: a".toList, "data: b".toList] _
    (by decide) (by decide)

/-! ### Reducer helper lemmas -/

theorem modifyLast_concat (f : Message → Message) (ms : List Message)
    (m : Message) : modifyLast f (ms ++ [m]) = ms ++ [f m] := by
  induction ms with
  | nil => rfl
  | cons a as ih =>
    cases has : as ++ [m] with
    | nil => exact absurd has (by simp)
    | cons b bs =>
      calc modifyLast f (a :: (as ++ [m]))
          = a :: modifyLast f (as ++ [m]) := by rw [has]; rfl
        _ = a :: (as ++ [f m]) := by rw [ih]

theorem handleEvent_nil_subs (sm : StateModel S) (freshId : MessageId)
    (ev : Event S) (hs : HState S) :
    handleEvent sm [] freshId ev hs =
      match defaultStep sm freshId ev hs with
      | .error e => (.error e, hs)
      | .ok (hs1, cur) => (.ok cur, hs1) := by
  rw [handleEvent]
  simp only [List.mapM_nil]
  cases defaultStep sm freshId ev hs with
  | error e => rfl
  | ok p => cases p; rfl

/-! ### StateDelta patch semantics (C4) -/

/-- C4: the `StateDelta` default step serializes the typed state, applies
the ordered RFC 6902 operations atomically and deserializes back; a patch
failure is an Execution error and a deserialization mismatch a hard error,
and in both cases the handler's canonical typed state is returned
unchanged; on success the state becomes the deserialized patched value.
The final two conjuncts instantiate the spec's example: replacing
`/counter` with 5 on `{counter: 0}`, and a patch with a missing path. -/
theorem stateDelta_patch_semantics (S : Type) (sm : StateModel S)
    (freshId : MessageId) (hs : HState S) (delta : List Json) :
    (∀ patches, parsePatchOps delta = some patches →
      applyPatch (sm.ser hs.state) patches = none →
      handleEvent sm [] freshId (.stateDelta delta) hs =
        (.error (.execution "Failed to apply state patch"), hs)) ∧
    (∀ patches v e, parsePatchOps delta = some patches →
      applyPatch (sm.ser hs.state) patches = some v →
      sm.de v = .error e →
      handleEvent sm [] freshId (.stateDelta delta) hs = (.error e, hs)) ∧
    (∀ patches v s', parsePatchOps delta = some patches →
      applyPatch (sm.ser hs.state) patches = some v →
      sm.de v = .ok s' →
      handleEvent sm [] freshId (.stateDelta delta) hs =
        (.ok ⟨none, some s', false⟩, { hs with state := s' })) ∧
    handleEvent jsonStateModel [] 0
        (.stateDelta [.obj [("op", .str "replace"), ("path", .str "/counter"),
          ("value", .num 5)]])
        ⟨[], .obj [("counter", .num 0)], .null⟩ =
      (.ok ⟨none, some (.obj [("counter", .num 5)]), false⟩,
        ⟨[], .obj [("counter", .num 5)], .null⟩) ∧
    handleEvent jsonStateModel [] 0
        (.stateDelta [.obj [("op", .str "replace"), ("path", .str "/missing"),
          ("value", .num 5)]])
        ⟨[], .obj [("counter", .num 0)], .null⟩ =
      (.error (.execution "Failed to apply state patch"),
        ⟨[], .obj [("counter", .num 0)], .null⟩) := by
  refine ⟨fun patches hp ha => ?_, fun patches v e hp ha hd => ?_,
    fun patches v s' hp ha hd => ?_, by rfl, by rfl⟩
  · rw [handleEvent_nil_subs]
    simp [defaultStep, hp, ha]
  · rw [handleEvent_nil_subs]
    simp [defaultStep, hp, ha, hd]
  · rw [handleEvent_nil_subs]
    simp [defaultStep, hp, ha, hd, mergeLoop]

/-- Closed instance of `stateDelta_patch_semantics`: the patch-failure
clause applied to the missing-path example. -/
theorem stateDelta_patch_semantics_witness :
    handleEvent jsonStateModel [] 0
        (.stateDelta [.obj [("op", .str "replace"), ("path", .str "/missing"),
          ("value", .num 5)]])
        ⟨[], .obj [("counter", .num 0)], .null⟩ =
      (.error (.execution "Failed to apply state patch"),
        ⟨[], .obj [("counter", .num 0)], .null⟩) :=
  (stateDelta_patch_semantics Json jsonStateModel 0
      ⟨[], .obj [("counter", .num 0)], .null⟩
      [.obj [("op", .str "replace"), ("path", .str "/missing"),
        ("value", .num 5)]]).1
    [.replace ["missing"] (.num 5)] rfl rfl

/-! ### ToolCallStart default reconstruction (C2) -/

/-- Counterexample to C2 as stated: with a non-empty message list whose
last message does not match the declared parent id, the default rule
creates no new assistant message keyed by the parent id (the list is left
exactly as it was, with no tool call attached anywhere); the new-message
branch runs only when the message list is empty. -/
theorem toolCallStart_mismatch_counterexample :
    (handleEvent jsonStateModel [] 100
        (.toolCallStart "call_1" "f" (some 2))
        ⟨[.assistant 1 none none none], .null, .null⟩).2.messages =
      [.assistant 1 none none none] ∧
    ((handleEvent jsonStateModel [] 100
        (.toolCallStart "call_1" "f" (some 2))
        ⟨[.assistant 1 none none none], .null, .null⟩).2.messages.all
      (fun m => Message.id m ≠ 2 ∧ (Message.tool_calls m).isNone)) = true := by
  constructor <;> rfl

/-- C2 amended: on `ToolCallStart`, (A) with an empty message list a new
assistant message keyed by the declared parent id (or the freshly drawn
random id) is created, without the tool call attached; (B) when the last
message matches the parent id and is an assistant message, an
empty-argument tool call (event id, call kind "function", event name) is
appended to its tool-call list; (C) when the last message does not match,
the list is unchanged; (D) when the last message matches but is not an
assistant message, it has no tool-call list and the list is unchanged;
and in every case the canonical message list is recorded in the merged
mutation. -/
theorem toolCallStart_default_reconstruction (S : Type) (sm : StateModel S)
    (freshId : MessageId) (tcId : ToolCallId) (tcName : String)
    (parent : Option MessageId) (st : S) (res : Json) :
    (∀ hs : HState S, hs.messages = [] →
      handleEvent sm [] freshId (.toolCallStart tcId tcName parent) hs =
        (.ok ⟨some [Message.assistant (parent.getD freshId) none none none],
            none, false⟩,
          { hs with
            messages := [Message.assistant (parent.getD freshId) none none none] })) ∧
    (∀ ms i c n tcs, parent = some i →
      handleEvent sm [] freshId (.toolCallStart tcId tcName parent)
          ⟨ms ++ [Message.assistant i c n tcs], st, res⟩ =
        (.ok ⟨some (ms ++ [Message.assistant i c n
              (some (tcs.getD [] ++ [⟨tcId, "function", ⟨tcName, ""⟩⟩]))]),
            none, false⟩,
          ⟨ms ++ [Message.assistant i c n
              (some (tcs.getD [] ++ [⟨tcId, "function", ⟨tcName, ""⟩⟩]))], st, res⟩)) ∧
    (∀ ms lm, parent ≠ some (Message.id lm) →
      handleEvent sm [] freshId (.toolCallStart tcId tcName parent)
          ⟨ms ++ [lm], st, res⟩ =
        (.ok ⟨some (ms ++ [lm]), none, false⟩, ⟨ms ++ [lm], st, res⟩)) ∧
    (∀ ms lm, parent = some (Message.id lm) → Message.role lm ≠ .assistant →
      handleEvent sm [] freshId (.toolCallStart tcId tcName parent)
          ⟨ms ++ [lm], st, res⟩ =
        (.ok ⟨some (ms ++ [lm]), none, false⟩, ⟨ms ++ [lm], st, res⟩)) := by
  refine ⟨fun hs hemp => ?_, fun ms i c n tcs hpar => ?_,
    fun ms lm hpar => ?_, fun ms lm hpar hrole => ?_⟩ <;>
    rw [handleEvent_nil_subs]
  · cases hs
    subst hemp
    rfl
  · subst hpar
    simp [defaultStep, List.getLast?_concat, modifyLast_concat,
      Message.pushToolCall, Message.id]
  · have hlast : (ms ++ [lm]).getLast? = some lm := List.getLast?_concat ..
    have hcond : ¬ (some (Message.id lm) = parent) := fun h => hpar h.symm
    simp [defaultStep, hlast, hcond]
  · have hlast : (ms ++ [lm]).getLast? = some lm := List.getLast?_concat ..
    have hpush : Message.pushToolCall lm ⟨tcId, "function", ⟨tcName, ""⟩⟩ = lm := by
      cases lm <;> first | rfl | exact absurd rfl hrole
    simp [defaultStep, hlast, hpar, modifyLast_concat, hpush]

/-- Closed instance of `toolCallStart_default_reconstruction`: the
matching-assistant branch appends the tool call. -/
theorem toolCallStart_default_reconstruction_witness :
    handleEvent jsonStateModel [] 100 (.toolCallStart "call_1" "f" (some 1))
        ⟨[.assistant 1 none none none], .null, .null⟩ =
      (.ok ⟨some [.assistant 1 none none
            (some [⟨"call_1", "function", ⟨"f", ""⟩⟩])], none, false⟩,
        ⟨[.assistant 1 none none
            (some [⟨"call_1", "function", ⟨"f", ""⟩⟩])], .null, .null⟩) := by
  have h := (toolCallStart_default_reconstruction Json jsonStateModel 100
    "call_1" "f" (some 1) Json.null Json.null).2.1 [] 1 none none none rfl
  simpa using h

/-! ### Mutation merge fold (C5) -/

/-- Last-write-wins overwrite of an optional field, as `process_mutation`
records set fields into the running merged mutation. -/
def overwrite (acc o : Option α) : Option α :=
  if o.isSome then o else acc

/-- The last set value of a sequence of optional writes over a base. -/
def lastSome (base : Option α) (l : List (Option α)) : Option α :=
  l.foldl overwrite base

theorem processMutation_eq (hs : HState S) (cur m : Mutation S) :
    processMutation hs cur m =
      (updateFromMutation hs m,
        { cur with
          messages := overwrite cur.messages m.messages
          state := overwrite cur.state m.state }) := by
  rw [processMutation]
  split
  · rfl
  · rename_i hcond
    simp only [not_or] at hcond
    obtain ⟨h1, h2⟩ := hcond
    rw [Option.not_isSome_iff_eq_none] at h1 h2
    simp [updateFromMutation, overwrite, h1, h2]

/-- Counterexample to C5 as stated: with two subscribers on an event with
no default mutation, the first returning a message-list replacement and
the second a bare stop-propagation mutation, the replacement is applied to
canonical state but the externally-returned merged mutation is the stop
mutation itself, whose message field is `none` — the earlier-collected
replacement is not recorded in the returned mutation. -/
theorem merge_stop_discards_record_counterexample :
    handleEvent jsonStateModel
        [{ onSpecific := fun _ _ _ => .ok { messages := some [.user 5 "x" none] } },
         { onSpecific := fun _ _ _ => .ok { stop_propagation := true } }]
        0 .thinkingEnd ⟨[], .null, .null⟩ =
      (.ok ⟨none, none, true⟩, ⟨[.user 5 "x" none], .null, .null⟩) := rfl

/-- C5 amended: the merge is an ordered fold in collection order.  While
no stop flag is seen, each mutation that sets a message-list or state
replacement is applied to canonical state immediately and recorded into
the running merged mutation (last write wins); the first stop-flagged
mutation is applied on top of the state produced by the mutations before
it and is returned itself as the merged mutation — the running record and
every later-collected mutation are discarded. -/
theorem mergeLoop_ordered_fold (S : Type) (hs : HState S) (cur : Mutation S) :
    (∀ ms : List (Mutation S), (∀ m ∈ ms, m.stop_propagation = false) →
      mergeLoop hs cur ms =
        ({ messages := lastSome cur.messages (ms.map (·.messages))
           state := lastSome cur.state (ms.map (·.state))
           stop_propagation := cur.stop_propagation },
         ms.foldl updateFromMutation hs)) ∧
    (∀ pre mstop post, (∀ m ∈ pre, m.stop_propagation = false) →
      mstop.stop_propagation = true →
      mergeLoop hs cur (pre ++ mstop :: post) =
        (mstop, updateFromMutation (pre.foldl updateFromMutation hs) mstop)) := by
  constructor
  · intro ms
    induction ms generalizing hs cur with
    | nil =>
      intro hstop
      simp [mergeLoop, lastSome]
    | cons m rest ih =>
      intro hstop
      have hm : m.stop_propagation = false := hstop m (by simp)
      have step : mergeLoop hs cur (m :: rest) =
          mergeLoop (updateFromMutation hs m)
            { cur with
              messages := overwrite cur.messages m.messages
              state := overwrite cur.state m.state } rest := by
        rw [mergeLoop, if_neg (by simp [hm]), processMutation_eq]
      rw [step, ih _ _ (fun u hu => hstop u (by simp [hu]))]
      rfl
  · intro pre
    induction pre generalizing hs cur with
    | nil =>
      intro mstop post hpre hstop
      simp [mergeLoop, hstop, List.foldl]
    | cons m rest ih =>
      intro mstop post hpre hstop
      have hm : m.stop_propagation = false := hpre m (by simp)
      have step : mergeLoop hs cur ((m :: rest) ++ mstop :: post) =
          mergeLoop (updateFromMutation hs m)
            { cur with
              messages := overwrite cur.messages m.messages
              state := overwrite cur.state m.state } (rest ++ mstop :: post) := by
        rw [show (m :: rest) ++ mstop :: post = m :: (rest ++ mstop :: post) from rfl,
          mergeLoop, if_neg (by simp [hm]), processMutation_eq]
      rw [step, ih _ _ mstop post (fun u hu => hpre u (by simp [hu])) hstop]
      rfl

/-- Closed instance of `mergeLoop_ordered_fold`: a setter followed by a
stop mutation applies both but returns the stop mutation. -/
theorem mergeLoop_ordered_fold_witness :
    mergeLoop (⟨[], Json.null, Json.null⟩ : HState Json) {}
        [{ messages := some [.user 5 "x" none] }, { stop_propagation := true }] =
      ({ stop_propagation := true },
        ⟨[.user 5 "x" none], Json.null, Json.null⟩) := by
  have h := (mergeLoop_ordered_fold Json ⟨[], Json.null, Json.null⟩ {}).2
    [{ messages := some [.user 5 "x" none] }] { stop_propagation := true } []
    (by intro m hm; simp at hm; rw [hm]) rfl
  simpa [updateFromMutation] using h

/-! ### Hook dispatch precedes the merge fold (C10) -/

theorem mapM_ok_map (f : α → Except AgError β) (l : List α) (res : List β)
    (h : l.mapM f = .ok res) : l.map f = res.map Except.ok := by
  induction l generalizing res with
  | nil =>
    simp only [List.mapM_nil] at h
    cases h
    rfl
  | cons a l ih =>
    rw [List.mapM_cons] at h
    cases hfa : f a with
    | error e => rw [hfa] at h; simp [Bind.bind, Except.bind] at h
    | ok b =>
      rw [hfa] at h
      cases hml : l.mapM f with
      | error e => rw [hml] at h; simp [Bind.bind, Except.bind] at h
      | ok bs =>
        rw [hml] at h
        simp only [Bind.bind, Except.bind, pure, Except.pure, Except.ok.injEq] at h
        rw [List.map, hfa, ih bs hml, ← h]
        rfl

/-- C10: `handle_event` collects the generic hook from every subscriber,
runs the default step, collects the event-specific hook from every
subscriber, and only then runs the merge fold over all collected
mutations.  The maps show one collected value per subscriber, in
registration order, with no hypothesis on the stop flags those mutations
carry: a stop flag affects only the fold, never hook invocation. -/
theorem hooks_all_invoked_before_merge (S : Type) (sm : StateModel S)
    (subs : List (Subscriber S)) (freshId : MessageId) (ev : Event S)
    (hs : HState S) (muts1 muts2 : List (Mutation S)) (hs1 : HState S)
    (cur : Mutation S)
    (h1 : subs.mapM (fun sub => sub.onEvent ev hs.messages hs.state) = .ok muts1)
    (hd : defaultStep sm freshId ev hs = .ok (hs1, cur))
    (h2 : subs.mapM (fun sub => sub.onSpecific ev hs1.messages hs1.state) = .ok muts2) :
    handleEvent sm subs freshId ev hs =
      (.ok (mergeLoop hs1 cur (muts1 ++ muts2)).1,
        (mergeLoop hs1 cur (muts1 ++ muts2)).2) ∧
    subs.map (fun sub => sub.onEvent ev hs.messages hs.state) =
      muts1.map Except.ok ∧
    subs.map (fun sub => sub.onSpecific ev hs1.messages hs1.state) =
      muts2.map Except.ok := by
  refine ⟨?_, mapM_ok_map _ _ _ h1, mapM_ok_map _ _ _ h2⟩
  rw [handleEvent, h1, hd]
  show (match subs.mapM (fun sub => sub.onSpecific ev hs1.messages hs1.state) with
    | Except.error e => ((Except.error e : Except AgError (Mutation S)), hs1)
    | Except.ok ms2 =>
      match mergeLoop hs1 cur (muts1 ++ ms2) with
      | (merged, hs2) => (Except.ok merged, hs2)) = _
  rw [h2]

/-- A two-subscriber list whose first subscriber returns a stop-flagged
mutation from the generic hook. -/
def stopFirstSubs : List (Subscriber Json) :=
  [{ onEvent := fun _ _ _ => .ok { stop_propagation := true } }, {}]

/-- Closed instance of `hooks_all_invoked_before_merge`: even though the
first subscriber's generic hook stops propagation, the second subscriber's
hooks are still invoked and collected. -/
theorem hooks_all_invoked_before_merge_witness :
    handleEvent jsonStateModel stopFirstSubs 0 .thinkingEnd
        ⟨[], Json.null, Json.null⟩ =
      (.ok { stop_propagation := true }, ⟨[], Json.null, Json.null⟩) ∧
    stopFirstSubs.map (fun sub => sub.onEvent .thinkingEnd [] Json.null) =
      [.ok { stop_propagation := true }, .ok {}] ∧
    stopFirstSubs.map (fun sub => sub.onSpecific .thinkingEnd [] Json.null) =
      [.ok {}, .ok {}] := by
  have h := hooks_all_invoked_before_merge Json jsonStateModel stopFirstSubs 0
    .thinkingEnd ⟨[], Json.null, Json.null⟩
    [{ stop_propagation := true }, {}] [{}, {}] ⟨[], Json.null, Json.null⟩ {}
    rfl rfl rfl
  exact ⟨h.1, h.2.1, h.2.2⟩

/-! ### Failure and finalization notifications (C3) -/

theorem runNotify_all_ok (inv : Subscriber S → Except AgError Unit)
    (tag : Notif) (subs : List (Subscriber S))
    (h : ∀ sub ∈ subs, inv sub = .ok ()) :
    runNotify inv tag subs = (.ok (), List.replicate subs.length tag) := by
  induction subs with
  | nil => rfl
  | cons sub rest ih =>
    rw [runNotify, h sub (by simp), ih (fun u hu => h u (by simp [hu]))]
    rfl

/-- Counterexample to C3 as stated: a subscriber whose generic hook fails
on the first event aborts the run with that error, but no run-failed and
no run-finalized notification is delivered to anyone — the notification
trace of the whole run is empty. -/
theorem run_failure_counterexample :
    runAgent jsonStateModel
        [{ onEvent := fun _ _ _ => .error (.subscriber "boom") }]
        (fun _ => 0) [] Json.null [.ok .runStarted] =
      (.error (.subscriber "boom"), []) := rfl

/-- C3 amended: (a) a subscriber-hook failure during event handling aborts
the run immediately and the error is returned with no notification at
all; (b) a stream (transport/frame/decode) error triggers the run-failed
notification for every subscriber, in order, before that error is
returned — and run-finalized does not fire on this path; (c) the
run-finalized notification fires for every subscriber only on the
successful terminal path, after the loop's own notifications. -/
theorem run_failure_and_finalize_paths (S : Type) (sm : StateModel S)
    (subs : List (Subscriber S)) (fresh : Nat → MessageId) :
    (∀ (n : Nat) (hs : HState S) (ev : Event S) rest e,
      (handleEvent sm subs (fresh n) ev hs).1 = .error e →
      runLoop sm subs fresh n hs (.ok ev :: rest) = (.error e, [])) ∧
    (∀ (n : Nat) (hs : HState S) (e : AgError) rest,
      (∀ sub ∈ subs, sub.onRunFailed e hs.messages hs.state = .ok ()) →
      runLoop sm subs fresh n hs (.error e :: rest) =
        (.error e, List.replicate subs.length .runFailed)) ∧
    (∀ (initMsgs : List Message) (initState : S) items (hs : HState S) tr,
      runLoop sm subs fresh 0 ⟨initMsgs, initState, Json.null⟩ items = (.ok hs, tr) →
      (∀ sub ∈ subs, sub.onRunFinalized hs.messages hs.state = .ok ()) →
      runAgent sm subs fresh initMsgs initState items =
        (.ok ⟨hs.result,
          hs.messages.filter
            (fun m => ¬ (initMsgs.map Message.id).contains (Message.id m)),
          hs.state⟩,
          tr ++ List.replicate subs.length .runFinalized)) := by
  refine ⟨fun n hs ev rest e hE => ?_, fun n hs e rest hok => ?_,
    fun initMsgs initState items hs tr hloop hfin => ?_⟩
  · rw [runLoop]
    rcases hEv : handleEvent sm subs (fresh n) ev hs with ⟨r, hs'⟩
    rw [hEv] at hE
    cases hE
    rfl
  · rw [runLoop, runNotify_all_ok _ _ subs hok]
  · rw [runAgent, hloop]
    show (match runNotify (fun sub => sub.onRunFinalized hs.messages hs.state)
        .runFinalized subs with
      | (r, tr2) =>
        match r with
        | .error e => ((.error e : Except AgError (RunAgentResult S)), tr ++ tr2)
        | .ok _ =>
          (.ok ⟨hs.result,
            hs.messages.filter
              (fun m => ¬ (initMsgs.map Message.id).contains (Message.id m)),
            hs.state⟩, tr ++ tr2)) = _
    rw [runNotify_all_ok (fun sub => sub.onRunFinalized hs.messages hs.state)
      .runFinalized subs hfin]

/-- Closed instance of `run_failure_and_finalize_paths`: a stream error
delivers run-failed to the one subscriber and returns the error. -/
theorem run_failure_and_finalize_paths_witness :
    runLoop jsonStateModel [{}] (fun _ => 0) 0 ⟨[], Json.null, Json.null⟩
        [.error (.sseParse "bad frame")] =
      (.error (.sseParse "bad frame"), [.runFailed]) := by
  have h := (run_failure_and_finalize_paths Json jsonStateModel [{}]
    (fun _ => 0)).2.1 0 ⟨[], Json.null, Json.null⟩ (.sseParse "bad frame") []
    (by intro sub hsub; simp at hsub; rw [hsub])
  simpa using h

/-! ### The new-message notification never fires (C1) -/

/-- The notifications whose delivery C1 is about. -/
def Notif.isNewish : Notif → Bool
  | .newMessage _ => true
  | .newToolCall _ => true
  | _ => false

theorem runNotify_trace_all_tag (inv : Subscriber S → Except AgError Unit)
    (tag : Notif) (subs : List (Subscriber S)) :
    ∀ n ∈ (runNotify inv tag subs).2, n = tag := by
  induction subs with
  | nil => simp [runNotify]
  | cons sub rest ih =>
    rw [runNotify]
    cases inv sub with
    | error e => simp
    | ok u =>
      rcases hr : runNotify inv tag rest with ⟨r, tr⟩
      rw [hr] at ih
      simpa using ih

theorem filter_not_own_id (msgs : List Message) :
    msgs.filter
      (fun m => ¬ (msgs.map Message.id).contains (Message.id m)) = [] := by
  rw [List.filter_eq_nil_iff]
  intro m hm
  have : (msgs.map Message.id).contains (Message.id m) = true :=
    List.elem_eq_true_of_mem (List.mem_map_of_mem Message.id hm)
  simp [this]
  exact ⟨m, hm, rfl⟩

/-- A merged mutation is consistent with a handler state when any message
list it carries is already the handler's canonical list. -/
def MsgConsistent (hs : HState S) (mu : Mutation S) : Prop :=
  ∀ l, mu.messages = some l → hs.messages = l

theorem defaultStep_msgConsistent (sm : StateModel S) (freshId : MessageId)
    (ev : Event S) (hs hs1 : HState S) (cur : Mutation S)
    (hd : defaultStep sm freshId ev hs = .ok (hs1, cur)) :
    MsgConsistent hs1 cur := by
  intro l hm
  cases ev <;>
    simp only [defaultStep] at hd <;>
    (try split at hd) <;>
    (try split at hd) <;>
    (try split at hd) <;>
    first
      | (simp only [Except.ok.injEq, Prod.mk.injEq] at hd;
         obtain ⟨h1, h2⟩ := hd;
         subst h1;
         rw [← h2] at hm;
         simp_all)
      | simp at hd

theorem mergeLoop_msgConsistent (ms : List (Mutation S)) :
    ∀ (hs : HState S) (cur : Mutation S), MsgConsistent hs cur →
      MsgConsistent (mergeLoop hs cur ms).2 (mergeLoop hs cur ms).1 := by
  induction ms with
  | nil => intro hs cur h; simpa [mergeLoop] using h
  | cons m rest ih =>
    intro hs cur h
    rw [mergeLoop]
    split
    · intro l hm
      simp only at hm
      simp [updateFromMutation, hm]
    · have hpm := processMutation_eq hs cur m
      rw [hpm]
      show MsgConsistent (mergeLoop _ _ rest).2 (mergeLoop _ _ rest).1
      apply ih
      intro l hm
      simp only [overwrite] at hm
      split at hm
      · rename_i hsome
        rw [Option.isSome_iff_exists] at hsome
        obtain ⟨l', hl'⟩ := hsome
        rw [hl'] at hm
        cases hm
        simp [updateFromMutation, hl']
      · rename_i hnone
        rw [Option.not_isSome_iff_eq_none] at hnone
        simp [updateFromMutation, hnone, h l hm]

theorem handleEvent_msgConsistent (sm : StateModel S)
    (subs : List (Subscriber S)) (freshId : MessageId) (ev : Event S)
    (hs : HState S) (mu : Mutation S) (hs' : HState S)
    (hE : handleEvent sm subs freshId ev hs = (Except.ok mu, hs')) :
    MsgConsistent hs' mu := by
  rw [handleEvent] at hE
  split at hE
  · simp at hE
  · rename_i muts1 h1
    split at hE
    · simp at hE
    · rename_i hs1 cur hd
      split at hE
      · simp at hE
      · rename_i muts2 h2
        rcases hml : mergeLoop hs1 cur (muts1 ++ muts2) with ⟨merged, hs2⟩
        rw [hml] at hE
        simp only [Prod.mk.injEq, Except.ok.injEq] at hE
        obtain ⟨hmm, hhs⟩ := hE
        subst hmm
        subst hhs
        have hc := mergeLoop_msgConsistent (muts1 ++ muts2) hs1 cur
          (defaultStep_msgConsistent sm freshId ev hs hs1 cur hd)
        rw [hml] at hc
        exact hc

theorem bindN_ok (tr : List Notif)
    (k : Unit → Except AgError Unit × List Notif) :
    bindN (.ok (), tr) k = ((k ()).1, tr ++ (k ()).2) := rfl

theorem applyMessagesPart_trace (subs : List (Subscriber S)) (hs : HState S)
    (mu : Mutation S) (hcons : MsgConsistent hs mu) :
    ∀ m ∈ (applyMessagesPart subs hs mu).2.2, m = Notif.messagesChanged := by
  intro m hmem
  cases hmu : mu.messages with
  | none => simp [applyMessagesPart, hmu] at hmem
  | some msgs =>
    have hmsgs : hs.messages = msgs := hcons msgs hmu
    simp only [applyMessagesPart, hmu] at hmem
    rw [hmsgs, filter_not_own_id msgs] at hmem
    rw [show notifyNewMessages subs
        ({ hs with messages := msgs } : HState S) [] = (.ok (), []) from rfl,
      bindN_ok] at hmem
    simp only [List.nil_append] at hmem
    exact runNotify_trace_all_tag _ _ subs m hmem

theorem applyMutation_no_newish (subs : List (Subscriber S)) (hs : HState S)
    (mu : Mutation S) (hcons : MsgConsistent hs mu) :
    ∀ n ∈ (applyMutation subs hs mu).2, n.isNewish = false := by
  intro n hn
  have hpart := applyMessagesPart_trace subs hs mu hcons
  rw [applyMutation.eq_def] at hn
  rcases hmp : applyMessagesPart subs hs mu with ⟨hs1, r1, tr1⟩
  rw [hmp] at hn hpart
  cases r1 with
  | error e =>
    dsimp only at hn
    rw [hpart n hn]
    rfl
  | ok u =>
    dsimp only at hn hpart
    cases hms : mu.state with
    | none =>
      rw [hms] at hn
      dsimp only at hn
      rw [hpart n hn]
      rfl
    | some st =>
      rw [hms] at hn
      dsimp only at hn
      rcases hrn : runNotify
          (fun sub => sub.onStateChanged
            ({ hs1 with state := st } : HState S).messages
            ({ hs1 with state := st } : HState S).state)
          .stateChanged subs with ⟨r2, tr2⟩
      have htag := runNotify_trace_all_tag
        (fun sub => sub.onStateChanged
          ({ hs1 with state := st } : HState S).messages
          ({ hs1 with state := st } : HState S).state)
        .stateChanged subs
      rw [hrn] at hn htag
      cases r2 <;> dsimp only at hn <;>
        rcases List.mem_append.mp hn with hmem | hmem
      · rw [hpart n hmem]; rfl
      · rw [htag n hmem]; rfl
      · rw [hpart n hmem]; rfl
      · rw [htag n hmem]; rfl

theorem runLoop_no_newish (items : List (StreamItem S)) :
    ∀ (sm : StateModel S) (subs : List (Subscriber S)) (fresh : Nat → MessageId)
      (n : Nat) (hs : HState S),
      ∀ nt ∈ (runLoop sm subs fresh n hs items).2, nt.isNewish = false := by
  induction items with
  | nil =>
    intro sm subs fresh n hs nt hnt
    simp [runLoop] at hnt
  | cons item rest ih =>
    intro sm subs fresh n hs nt hnt
    cases item with
    | error e =>
      rw [runLoop] at hnt
      rcases hrn : runNotify (fun sub => sub.onRunFailed e hs.messages hs.state)
          .runFailed subs with ⟨r, tr⟩
      have htag := runNotify_trace_all_tag
        (fun sub => sub.onRunFailed e hs.messages hs.state) .runFailed subs
      rw [hrn] at hnt htag
      dsimp only at hnt
      rw [htag nt hnt]
      rfl
    | ok ev =>
      rw [runLoop] at hnt
      rcases hE : handleEvent sm subs (fresh n) ev hs with ⟨r, hs1⟩
      rw [hE] at hnt
      cases r with
      | error e =>
        dsimp only at hnt
        simp at hnt
      | ok merged =>
        dsimp only at hnt
        have hcons := handleEvent_msgConsistent sm subs (fresh n) ev hs
          merged hs1 hE
        have hno := applyMutation_no_newish subs hs1 merged hcons
        rcases hAM : applyMutation subs hs1 merged with ⟨r2, tr2⟩
        rw [hAM] at hnt hno
        cases r2 with
        | error e =>
          dsimp only at hnt
          exact hno nt hnt
        | ok hs2 =>
          dsimp only at hnt
          have hih := ih sm subs fresh (n + 1) hs2
          rcases hRL : runLoop sm subs fresh (n + 1) hs2 rest with ⟨r3, tr3⟩
          rw [hRL] at hnt hih
          dsimp only at hnt
          rcases List.mem_append.mp hnt with hmem | hmem
          · exact hno nt hmem
          · exact hih nt hmem

theorem runAgent_no_newish_trace (sm : StateModel S)
    (subs : List (Subscriber S)) (fresh : Nat → MessageId)
    (initMsgs : List Message) (initState : S) (items : List (StreamItem S)) :
    ∀ nt ∈ (runAgent sm subs fresh initMsgs initState items).2,
      nt.isNewish = false := by
  intro nt hnt
  rw [runAgent] at hnt
  have hloop := runLoop_no_newish items sm subs fresh 0
    ⟨initMsgs, initState, Json.null⟩
  rcases hRL : runLoop sm subs fresh 0 ⟨initMsgs, initState, Json.null⟩ items
    with ⟨r, tr⟩
  rw [hRL] at hnt hloop
  cases r with
  | error e =>
    dsimp only at hnt
    exact hloop nt hnt
  | ok hs =>
    dsimp only at hnt
    rcases hRN : runNotify
        (fun sub => sub.onRunFinalized hs.messages hs.state)
        .runFinalized subs with ⟨r2, tr2⟩
    have htag := runNotify_trace_all_tag
      (fun sub => sub.onRunFinalized hs.messages hs.state) .runFinalized subs
    rw [hRN] at hnt htag
    cases r2 <;> dsimp only at hnt <;>
      rcases List.mem_append.mp hnt with hmem | hmem
    · exact hloop nt hmem
    · rw [htag nt hmem]; rfl
    · exact hloop nt hmem
    · rw [htag nt hmem]; rfl

/-- C1 is a code bug: `handle_event` both mutates the handler's canonical
message list in place and records that same list into the merged mutation
it returns, so `apply_mutation` always diffs the new list against itself
and the new-message (and new-tool-call) notification can never fire — on
any run, with any subscribers, state model, events and initial input, the
notification trace contains no new-message or new-tool-call entry.  In
particular, on a run that introduces message id 1 from a
`TextMessageStart` event with one subscriber attached, the run's result
reports the new message, yet the trace holds only a messages-changed and
a run-finalized entry — where the spec requires exactly one new-message
notification for id 1. -/
theorem new_message_notification_never_fires :
    (∀ (S : Type) (sm : StateModel S) (subs : List (Subscriber S))
        (fresh : Nat → MessageId) (initMsgs : List Message) (initState : S)
        (items : List (StreamItem S)),
      ∀ nt ∈ (runAgent sm subs fresh initMsgs initState items).2,
        nt.isNewish = false) ∧
    runAgent jsonStateModel [{}] (fun _ => 0) [] Json.null
        [.ok (.textMessageStart 1)] =
      (.ok ⟨Json.null, [.assistant 1 (some "") none none], Json.null⟩,
        [.messagesChanged, .runFinalized]) :=
  ⟨fun _ sm subs fresh initMsgs initState items =>
    runAgent_no_newish_trace sm subs fresh initMsgs initState items, rfl⟩

/-- Closed instance of `new_message_notification_never_fires`: the
messages-changed entry actually delivered on the concrete run is not a
new-message notification. -/
theorem new_message_notification_never_fires_witness :
    Notif.isNewish .messagesChanged = false :=
  new_message_notification_never_fires.1 Json jsonStateModel [{}] (fun _ => 0)
    [] Json.null [.ok (.textMessageStart 1)] .messagesChanged (by decide)

/-! ### Text-message reconstruction (C8) -/

theorem notifyToolCalls_nil_subs (hs : HState S) (l : List ToolCall) :
    notifyToolCalls [] hs l = (.ok (), []) := by
  induction l with
  | nil => rfl
  | cons tc rest ih => simp [notifyToolCalls, bindN, runNotify, ih]

theorem notifyNewMessages_nil_subs (hs : HState S) (l : List Message) :
    notifyNewMessages [] hs l = (.ok (), []) := by
  induction l with
  | nil => rfl
  | cons m rest ih =>
    rw [notifyNewMessages]
    split <;> simp [bindN, runNotify, notifyToolCalls_nil_subs, ih]

theorem applyMutation_nil_subs (hs : HState S) (mu : Mutation S) :
    applyMutation [] hs mu = (.ok (updateFromMutation hs mu), []) := by
  rcases mu with ⟨mm, ms, stp⟩
  cases mm <;> cases ms <;>
    simp [applyMutation, applyMessagesPart, updateFromMutation, bindN,
      runNotify, notifyNewMessages_nil_subs]

theorem runLoop_nil_subs_cons (sm : StateModel S) (fresh : Nat → MessageId)
    (n : Nat) (hs : HState S) (ev : Event S) (rest : List (StreamItem S)) :
    runLoop sm [] fresh n hs (.ok ev :: rest) =
      match defaultStep sm (fresh n) ev hs with
      | .error e => (.error e, [])
      | .ok (hs1, cur) => runLoop sm [] fresh (n + 1) (updateFromMutation hs1 cur) rest := by
  rw [runLoop, handleEvent_nil_subs]
  cases hd : defaultStep sm (fresh n) ev hs with
  | error e => rfl
  | ok p =>
    rcases p with ⟨hs1, cur⟩
    show (match applyMutation [] hs1 cur with
      | (.error e, tr) => ((.error e : Except AgError (HState S)), tr)
      | (.ok hs2, tr) =>
        match runLoop sm [] fresh (n + 1) hs2 rest with
        | (r, tr') => (r, tr ++ tr')) = _
    rw [applyMutation_nil_subs]
    rcases hr : runLoop sm [] fresh (n + 1) (updateFromMutation hs1 cur) rest
      with ⟨r, tr'⟩
    simp

theorem defaultStep_content_concat (sm : StateModel S) (freshId : MessageId)
    (mid : MessageId) (d : String) (ms : List Message) (m : Message)
    (st : S) (res : Json) :
    defaultStep sm freshId (.textMessageContent mid d) ⟨ms ++ [m], st, res⟩ =
      .ok (⟨ms ++ [Message.pushContentDelta m d], st, res⟩,
        { messages := some (ms ++ [Message.pushContentDelta m d]) }) := by
  have h1 : defaultStep sm freshId (.textMessageContent mid d)
      ⟨ms ++ [m], st, res⟩ =
      .ok (⟨modifyLast (Message.pushContentDelta · d) (ms ++ [m]), st, res⟩,
        { messages := some (modifyLast (Message.pushContentDelta · d) (ms ++ [m])) }) := by
    cases hms : ms ++ [m] with
    | nil => exact absurd hms (by simp)
    | cons a as => rfl
  rw [h1, modifyLast_concat]

/-- C8: from any initial message list and with the default reconstruction
rules alone, `TextMessageStart mid`, content deltas `"He"` and `"llo"`,
then `TextMessageEnd` append exactly one new assistant message with the
given id and content `"Hello"` to the canonical list (the start event
appends an empty-content assistant message; each delta is appended to the
content of the last message; the end event changes nothing). -/
theorem text_message_sequence_builds_hello (S : Type) (sm : StateModel S)
    (fresh : Nat → MessageId) (msgs : List Message) (st : S) (res : Json)
    (mid : MessageId) :
    runLoop sm [] fresh 0 ⟨msgs, st, res⟩
        [.ok (.textMessageStart mid), .ok (.textMessageContent mid "He"),
         .ok (.textMessageContent mid "llo"), .ok (.textMessageEnd mid)] =
      (.ok ⟨msgs ++ [.assistant mid (some "Hello") none none], st, res⟩, []) := by
  rw [runLoop_nil_subs_cons]
  show runLoop sm [] fresh 1
      ⟨msgs ++ [.assistant mid (some "") none none], st, res⟩ _ = _
  rw [runLoop_nil_subs_cons, defaultStep_content_concat]
  show runLoop sm [] fresh 2
      ⟨msgs ++ [Message.pushContentDelta (.assistant mid (some "") none none) "He"],
        st, res⟩ _ = _
  rw [runLoop_nil_subs_cons, defaultStep_content_concat]
  show runLoop sm [] fresh 3
      ⟨msgs ++ [Message.pushContentDelta
        (Message.pushContentDelta (.assistant mid (some "") none none) "He") "llo"],
        st, res⟩ _ = _
  rw [runLoop_nil_subs_cons]
  rfl

end AgUi
